import Mathlib

/-!
Verification of the transform composition and invertibility engine of a
medical-imaging toolkit: the `Compose` sequencer (source file
`monai/transforms/compose.py`), the `OneOf` weighted branch selector, the
per-key invertibility trace protocol (`push_transform` / `pop_transform`),
and the seeding propagation of `set_random_state`.

Machine integers drawn from the pseudo-random generator are modelled as
naturals with an explicit `% MAXSEED` bound; the generator itself is
abstracted as a deterministic stream `R : Nat → Nat → Nat` mapping
(seed, draw index) to the raw drawn value, with the generator state
recording the seed and how many values were consumed.
-/

/-- The bound used for child-seed draws: `MAX_SEED` is the uint32 range
`2^32` (`np.iinfo(np.uint32).max + 1`). -/
def MAXSEED : Nat := 4294967296

/-- State of a numpy-style pseudo-random generator, abstracted as the seed
it was created from plus the number of values already drawn.  The raw
stream values are supplied by a parameter `R : Nat → Nat → Nat`. -/
structure RState where
  seed : Nat
  cnt : Nat
deriving Repr, DecidableEq

/-- Modelled from the spec: numpy's `RandomState.randint(bound)` (as used
by `Compose.set_random_state`) draws one bounded random integer from the
generator's own stream — the raw stream value reduced modulo the bound —
and advances the generator by one draw. -/
def randint (R : Nat → Nat → Nat) (g : RState) (bound : Nat) : Nat × RState :=
  (R g.seed g.cnt % bound, ⟨g.seed, g.cnt + 1⟩)

/-- One entry of a key's invertibility trace: the applying transform's
class name, plus optional extra info (`OneOf` stores the selected branch
index there). -/
structure TraceEntry where
  className : String
  extraIndex : Option Nat
deriving Repr, DecidableEq

/-- Association-list lookup (first binding wins), modelling Python dict
access. -/
def getA {α : Type} (k : String) : List (String × α) → Option α
  | [] => none
  | (k', v) :: rest => if k' = k then some v else getA k rest

/-- Association-list update: replaces the first binding of `k`, or appends
a new binding when absent, modelling Python dict assignment. -/
def setA {α : Type} (k : String) (v : α) : List (String × α) → List (String × α)
  | [] => [(k, v)]
  | (k', v') :: rest => if k' = k then (k, v) :: rest else (k', v') :: setA k v rest

/-- A keyed data record: the data mapping plus the per-key invertibility
trace stacks that invertible transforms store inside the record itself
(the reserved `key_transforms` fields). -/
structure DataDict where
  data : List (String × Int)
  trace : List (String × List TraceEntry)
deriving Repr, DecidableEq, Inhabited

/-- The trace stack of one key (empty when the reserved field is absent). -/
def traceOf (r : DataDict) (k : String) : List TraceEntry :=
  (getA k r.trace).getD []

/-- Whether the record carries a trace field for the key (Python:
`key + KEY_SUFFIX in data`). -/
def hasTraceKey (r : DataDict) (k : String) : Bool :=
  (getA k r.trace).isSome

/-- Modelled from the spec: `push_transform(record, key, extra_info)`
appends one trace entry to the key's trace sequence, creating the reserved
field when absent. -/
def pushTransform (r : DataDict) (k : String) (e : TraceEntry) : DataDict :=
  { r with trace := setA k (traceOf r k ++ [e]) r.trace }

/-- Modelled from the spec: `pop_transform(record, key)` removes the most
recent trace entry for the key, failing with a usage error when the key
has no entries or when the top entry does not carry the caller's class
identity. -/
def popTransform (own : String) (r : DataDict) (k : String) : Except String DataDict :=
  match (traceOf r k).getLast? with
  | none => .error "RuntimeError: no invertible transform recorded for key"
  | some e =>
      if e.className = own then
        .ok { r with trace := setA k (traceOf r k).dropLast r.trace }
      else
        .error "RuntimeError: transform order mismatch on inverse"

/-- A value flowing through a pipeline: either a bare scalar or a keyed
record (the two calling modes of `Compose`). -/
inductive Data where
  | scalar (x : Int)
  | record (r : DataDict)
deriving Repr, DecidableEq

/-- The transform variants the sequencer dispatches on (the design notes
prescribe modelling the `isinstance` capability checks as tagged
variants): plain transforms, randomizable transforms, map-style invertible
transforms, and the two sequencers `Compose` and `OneOf` (which are both
`Randomizable` and `InvertibleTransform`, `OneOf` extending `Compose`). -/
inductive Tfm where
  | plain (name : String) (f : Data → Data)
  | rand (name : String) (acceptsData : Bool) (st : RState) (f : Data → Data)
  | inv (name : String) (keys : List String) (fwd : Int → Int) (bwd : Int → Int)
  | compose (st : RState) (ts : List Tfm)
  | oneOf (st : RState) (ts : List Tfm) (ws : List Rat)

instance : Inhabited Tfm := ⟨.plain "" id⟩

/-- `isinstance(t, Randomizable)`: randomizable leaves and both sequencers
(`Compose` extends `Randomizable`, `OneOf` extends `Compose`). -/
def isRandomizable : Tfm → Bool
  | .rand .. => true
  | .compose .. => true
  | .oneOf .. => true
  | _ => false

/-- `isinstance(t, InvertibleTransform)`: invertible leaves and both
sequencers (`Compose` extends `InvertibleTransform`). -/
def isInvertible : Tfm → Bool
  | .inv .. => true
  | .compose .. => true
  | .oneOf .. => true
  | _ => false

/-- `type(t).__name__`, used in the warning text of `Compose.randomize`. -/
def tfmName : Tfm → String
  | .plain n _ => n
  | .rand n _ _ _ => n
  | .inv n _ _ _ => n
  | .compose _ _ => "Compose"
  | .oneOf _ _ _ => "OneOf"

/-- Forward application of a map-style invertible transform (the test
suite's `Inv` class over `MapTransform` and `InvertibleTransform`): for
each declared key, rewrite the value with `fwd` and push one trace entry
carrying the class name; a missing key is a KeyError. -/
def invLeafApply (n : String) (ks : List String) (fwd : Int → Int) (r : DataDict) :
    Except String DataDict :=
  match ks with
  | [] => .ok r
  | k :: rest =>
      match getA k r.data with
      | none => .error "KeyError"
      | some v =>
          invLeafApply n rest fwd
            (pushTransform { r with data := setA k (fwd v) r.data } k ⟨n, none⟩)

/-- Inverse of a map-style invertible transform (the test suite's `Inv`
class): for each declared key, rewrite the value with `bwd` and pop this
class's trace entry. -/
def invLeafInverse (n : String) (ks : List String) (bwd : Int → Int) (r : DataDict) :
    Except String DataDict :=
  match ks with
  | [] => .ok r
  | k :: rest =>
      match getA k r.data with
      | none => .error "KeyError"
      | some v =>
          match popTransform n { r with data := setA k (bwd v) r.data } k with
          | .error e => .error e
          | .ok r1 => invLeafInverse n rest bwd r1

/-- Modelled from the spec: the uniform variate that drives weighted
branch selection in `OneOf` — one bounded draw from the selector's own
generator mapped into the half-open unit interval. -/
def uniformOf (R : Nat → Nat → Nat) (g : RState) : Rat :=
  ((R g.seed g.cnt % MAXSEED : Nat) : Rat) / (MAXSEED : Rat)

/-- Modelled from the spec: draw one index from the discrete distribution
given by the normalized weights, by cumulative-sum inversion of one
uniform draw in `[0, 1)`; a weight-0 candidate is never selected. -/
def chooseIndex : Rat → List Rat → Nat
  | _, [] => 0
  | u, w :: ws => if u < w then 0 else chooseIndex (u - w) ws + 1

/-- Modelled from the spec: after applying the selected branch, `OneOf`
pushes its own trace entry — class name `"OneOf"` with the selected index
as extra info — onto every key of a keyed result that carries a trace
field (non-mapping results record nothing). -/
def oneOfMark (i : Nat) : Data → Data
  | .scalar x => .scalar x
  | .record r =>
      .record ((r.data.map Prod.fst).foldl (fun acc k =>
        if hasTraceKey acc k then pushTransform acc k ⟨"OneOf", some i⟩ else acc) r)

/-- Modelled from the spec: during `OneOf.inverse`, walk the record's
trace keys; whenever a key's last trace entry was pushed by `OneOf`,
remember the recorded branch index and pop that entry; keys whose last
entry belongs to someone else are left alone (delegation no-op). -/
def oneOfCollect (r : DataDict) : DataDict × Option Nat :=
  (r.trace.map Prod.fst).foldl (fun acc k =>
    match (traceOf acc.1 k).getLast? with
    | none => acc
    | some e =>
        if e.className = "OneOf" then
          ({ acc.1 with trace := setA k (traceOf acc.1 k).dropLast acc.1.trace }, e.extraIndex)
        else acc) (r, none)

mutual

/-- One member applied to one value (the `apply_transform` dispatch, the
wrapper itself modelled from the spec as plain invocation): plain and
randomizable transforms are bare callables; map-style invertible
transforms rewrite their keys and push trace entries; a nested `Compose`
chains its members; `OneOf` draws one weighted branch index from its own
generator, applies only that branch, and marks the traced keys of a keyed
result with the selected index. -/
def applyTfm (R : Nat → Nat → Nat) (t : Tfm) (x : Data) : Except String Data :=
  match t, x with
  | .plain _ f, x => .ok (f x)
  | .rand _ _ _ f, x => .ok (f x)
  | .inv n ks fwd _, x =>
      match x with
      | .scalar _ => .error "KeyError"
      | .record r => (invLeafApply n ks fwd r).map .record
  | .compose _ ts, x => composeCall R ts x
  | .oneOf st ts ws, x =>
      if ts.isEmpty then .ok x
      else
        match h : ts.get? (chooseIndex (uniformOf R st) ws) with
        | none => .error "IndexError"
        | some t' =>
            match applyTfm R t' x with
            | .error e => .error e
            | .ok y => .ok (oneOfMark (chooseIndex (uniformOf R st) ws) y)
termination_by sizeOf t
decreasing_by
  all_goals simp_wf
  all_goals try omega
  all_goals (have hm := List.sizeOf_lt_of_mem (List.get?_mem h); omega)

/-- `Compose.__call__`: feed the value through the members in sequence
order, the output of step i becoming the input of step i+1; the final
output is returned, with no retry and no skipping. -/
def composeCall (R : Nat → Nat → Nat) (ts : List Tfm) (x : Data) : Except String Data :=
  match ts with
  | [] => .ok x
  | t :: rest =>
      match applyTfm R t x with
      | .error e => .error e
      | .ok y => composeCall R rest y
termination_by sizeOf ts
decreasing_by
  all_goals simp_wf
  all_goals omega

end

mutual

/-- `t.inverse(d)` for one member, at the record level: map-style leaves
rewrite their keys and pop their trace entries; a nested `Compose` walks
its members backward; `OneOf` (modelled from the spec) pops its own trace
entries, reads the recorded branch index, and invokes inverse on exactly
that branch — failing with usage errors when no invertible transform was
recorded or when the recorded branch is not invertible.  Transforms
without the Invertible capability have no inverse method. -/
def tfmInverse (t : Tfm) (r : DataDict) : Except String DataDict :=
  match t with
  | .plain _ _ => .error "AttributeError: transform has no inverse"
  | .rand _ _ _ _ => .error "AttributeError: transform has no inverse"
  | .inv n ks _ bwd => invLeafInverse n ks bwd r
  | .compose _ ts => invWalk ts r
  | .oneOf _ ts _ =>
      if ts.isEmpty then .ok r
      else
        match oneOfCollect r with
        | (_, none) => .error "RuntimeError: no invertible transforms have been applied"
        | (r', some i) =>
            match h : ts.get? i with
            | none => .error "IndexError"
            | some t' =>
                if isInvertible t' then tfmInverse t' r'
                else .error "RuntimeError: selected branch is not invertible"
termination_by sizeOf t
decreasing_by
  all_goals simp_wf
  all_goals try omega
  all_goals (have hm := List.sizeOf_lt_of_mem (List.get?_mem h); omega)

/-- The backward walk of `Compose.inverse`: the members are visited in
reverse sequence order (structurally: the tail — the later members — is
inverted first, then the head), inverse is called only on members that
are `InvertibleTransform` instances, and every other member is skipped
silently. -/
def invWalk (ts : List Tfm) (r : DataDict) : Except String DataDict :=
  match ts with
  | [] => .ok r
  | t :: rest =>
      match invWalk rest r with
      | .error e => .error e
      | .ok r' => if isInvertible t then tfmInverse t r' else .ok r'
termination_by sizeOf ts
decreasing_by
  all_goals simp_wf
  all_goals omega

end

/-- `Compose.inverse`: requires the input to be a keyed mapping, failing
with a usage error otherwise; for a mapping it deep-copies the input
(value semantics in this model) and runs the backward walk. -/
def composeInverseData (ts : List Tfm) (d : Data) : Except String Data :=
  match d with
  | .scalar _ => .error "Inverse method only available for dictionary transforms"
  | .record r => (invWalk ts r).map .record

/-- Heap-level model of `Compose.inverse` used for the frame property: the
heap is a list of record objects addressed by position, the input record
lives at address `a`, `deepcopy(dict(data))` allocates a fresh object at
address `h.length`, and the backward walk reads and rewrites only that
fresh copy (members may mutate the record handed to them in place, which
the model renders as writing the walk's result back at the copy's
address).  The returned address is the copy's, never the input's. -/
def composeInverseHeap (ts : List Tfm) (h : List DataDict) (a : Nat) :
    Except String (List DataDict × Nat) :=
  match invWalk ts (h.getD a default) with
  | .error e => .error e
  | .ok r' => .ok ((h ++ [h.getD a default]).set h.length r', h.length)

mutual

/-- `set_random_state(seed)` on one member: a randomizable leaf replaces
its private generator with one freshly created from the given seed
(modelled from the spec for the `Randomizable` mixin); a nested `Compose`
or `OneOf` runs `Compose.set_random_state` recursively — first seeding its
own generator, then re-deriving its children's seeds; other members have
no random state. -/
def reseedTfm (R : Nat → Nat → Nat) (seed : Nat) (t : Tfm) : Tfm :=
  match t with
  | .plain n f => .plain n f
  | .rand n b _ f => .rand n b ⟨seed, 0⟩ f
  | .inv n ks f g => .inv n ks f g
  | .compose _ ts =>
      .compose (reseedList R ⟨seed, 0⟩ ts).2 (reseedList R ⟨seed, 0⟩ ts).1
  | .oneOf _ ts ws =>
      .oneOf (reseedList R ⟨seed, 0⟩ ts).2 (reseedList R ⟨seed, 0⟩ ts).1 ws
termination_by sizeOf t
decreasing_by
  all_goals simp_wf
  all_goals omega

/-- The loop of `Compose.set_random_state`: walk the members in sequence
order; for every `Randomizable` member draw one bounded random integer
(`self.R.randint(MAX_SEED, dtype="uint32")`) from the sequencer's own
generator and seed that member with it; members without the capability
are passed over without consuming a draw. -/
def reseedList (R : Nat → Nat → Nat) (g : RState) (ts : List Tfm) : List Tfm × RState :=
  match ts with
  | [] => ([], g)
  | t :: rest =>
      if isRandomizable t then
        (reseedTfm R (randint R g MAXSEED).1 t ::
            (reseedList R (randint R g MAXSEED).2 rest).1,
          (reseedList R (randint R g MAXSEED).2 rest).2)
      else
        (t :: (reseedList R g rest).1, (reseedList R g rest).2)
termination_by sizeOf ts
decreasing_by
  all_goals simp_wf
  all_goals omega

end

/-- `Compose.set_random_state(seed=s)` at the sequencer level: the call to
`super().set_random_state` replaces the sequencer's own generator with one
created from `s`, then the loop reseeds the children from the sequencer's
own stream. -/
def composeSetRandomState (R : Nat → Nat → Nat) (seed : Nat) (ts : List Tfm) : Tfm :=
  .compose (reseedList R ⟨seed, 0⟩ ts).2 (reseedList R ⟨seed, 0⟩ ts).1

/-- `Compose.__init__`: stores the member tuple and immediately calls
`set_random_state(seed=get_seed())`; `get_seed` (modelled from the spec as
the externally supplied fresh seed `gseed`) yields the parent seed the
children are re-derived from. -/
def composeInit (R : Nat → Nat → Nat) (gseed : Nat) (ts : List Tfm) : Tfm :=
  composeSetRandomState R gseed ts

/-- The seed a member's generator was (re)created from, when it has one. -/
def topSeed : Tfm → Option Nat
  | .rand _ _ st _ => some st.seed
  | .compose st _ => some st.seed
  | .oneOf st _ _ => some st.seed
  | _ => none

/-- The seeds assigned to the randomizable members of a pipeline, in
sequence order. -/
def assignedSeeds (ts : List Tfm) : List Nat :=
  ts.filterMap topSeed

/-- The number of `Randomizable` members of a pipeline (top level only). -/
def randCount (ts : List Tfm) : Nat :=
  ts.countP (fun t => isRandomizable t)

mutual

/-- `t.randomize(data)` for one member: a randomizable leaf whose
signature accepts the data argument draws fresh randomness (one value
consumed from its private stream); a leaf whose signature rejects the
argument raises a TypeError; a nested `Compose` or `OneOf` runs
`Compose.randomize`, which accepts the argument and catches its own
children's mismatches locally. -/
def tfmRandomize (t : Tfm) : Except Unit Tfm :=
  match t with
  | .rand n b st f => if b then .ok (.rand n b ⟨st.seed, st.cnt + 1⟩ f) else .error ()
  | .compose st ts => .ok (.compose st (composeRandomize ts).1)
  | .oneOf st ts ws => .ok (.oneOf st (composeRandomize ts).1 ws)
  | t' => .ok t'
termination_by sizeOf t
decreasing_by
  all_goals simp_wf
  all_goals omega

/-- The loop of `Compose.randomize`: call `randomize` on every
`Randomizable` member in sequence order; a member raising a TypeError is
caught, reported as a non-fatal warning naming the member, and left
unrandomized, and the walk continues with the remaining members. -/
def composeRandomize (ts : List Tfm) : List Tfm × List String :=
  match ts with
  | [] => ([], [])
  | t :: rest =>
      if isRandomizable t then
        match tfmRandomize t with
        | .ok t' => (t' :: (composeRandomize rest).1, (composeRandomize rest).2)
        | .error _ =>
            (t :: (composeRandomize rest).1, tfmName t :: (composeRandomize rest).2)
      else
        (t :: (composeRandomize rest).1, (composeRandomize rest).2)
termination_by sizeOf ts
decreasing_by
  all_goals simp_wf
  all_goals omega

end

mutual

/-- `len(t)` for a sequencer member (`Compose.__len__`, which `OneOf`
inherits): the sum over the members, counting a nested `Compose` instance
— `OneOf` included, being a `Compose` subclass — by its own recursive
length and any other member as one. -/
def tfmLen (t : Tfm) : Nat :=
  match t with
  | .compose _ ts => listLen ts
  | .oneOf _ ts _ => listLen ts
  | _ => 1
termination_by sizeOf t
decreasing_by
  all_goals simp_wf
  all_goals omega

/-- The generator expression inside `Compose.__len__`:
`sum(len(t) if isinstance(t, Compose) else 1 for t in self.transforms)`. -/
def listLen (ts : List Tfm) : Nat :=
  match ts with
  | [] => 0
  | .compose st ts' :: rest => tfmLen (.compose st ts') + listLen rest
  | .oneOf st ts' ws :: rest => tfmLen (.oneOf st ts' ws) + listLen rest
  | _ :: rest => 1 + listLen rest
termination_by sizeOf ts
decreasing_by
  all_goals simp_wf
  all_goals omega

end

/-- Modelled from the spec: `OneOf` construction normalizes given raw
weights by dividing each by the sum of all raw weights. -/
def normalizeWeights (ws : List Rat) : List Rat :=
  ws.map (fun w => w / ws.sum)

/-- The spec's reading of `Compose.inverse`'s backward walk, stated in the
spec's own words for comparison with the source's loop: restrict the
reversed member list to the members supporting the Invertible capability
and thread the data through their inverses. -/
def invWalkSpec (ts : List Tfm) (r : DataDict) : Except String DataDict :=
  (ts.reverse.filter (fun t => isInvertible t)).foldlM (fun acc t => tfmInverse t acc) r

/-- The claim's reading of `Compose.__len__`, stated in the spec's own
words for comparison with the source: nested `Compose` children counted
recursively, but a nested `OneOf` counted as exactly one element. -/
def specLen (ts : List Tfm) : Nat :=
  match ts with
  | [] => 0
  | .compose _ ts' :: rest => specLen ts' + specLen rest
  | _ :: rest => 1 + specLen rest
termination_by sizeOf ts
decreasing_by
  all_goals simp_wf
  all_goals omega

/-- The test suite's scalar transform `A` (`x → x + k` on bare values). -/
def scalarAdd (k : Int) : Data → Data
  | .scalar x => .scalar (x + k)
  | y => y

/-- The test suite's transforms `A`, `B`, `C`: plain scalar transforms
adding 1, 2 and 3. -/
def pA : Tfm := .plain "A" (scalarAdd 1)

/-- See `pA`. -/
def pB : Tfm := .plain "B" (scalarAdd 2)

/-- See `pA`. -/
def pC : Tfm := .plain "C" (scalarAdd 3)

/-- The test suite's `InvA` over keys x, y: forward adds 1, inverse
subtracts 1, trace entries tagged with the class name. -/
def invA : Tfm := .inv "InvA" ["x", "y"] (fun v => v + 1) (fun v => v - 1)

/-- The test suite's `InvB` over keys x, y: forward adds 100, inverse
subtracts 100. -/
def invB : Tfm := .inv "InvB" ["x", "y"] (fun v => v + 100) (fun v => v - 100)

/-- The test record `{"x": 10.0, "y": 20.0}` (exact values, no trace). -/
def d0 : DataDict := ⟨[("x", 10), ("y", 20)], []⟩

/-- `OneOf((InvA(KEYS), InvB(KEYS)), weights=(1, 1))` with its stored
normalized weights. -/
def oneOfAB (st : RState) : Tfm := .oneOf st [invA, invB] (normalizeWeights [1, 1])

/-- One member's fate under the `Compose.randomize` loop: a randomizable
member is replaced by its randomized self when its `randomize` accepts the
data argument, and kept unchanged when it raises; everyone else is
untouched. -/
def randStep (t : Tfm) : Tfm :=
  if isRandomizable t then
    match tfmRandomize t with
    | .ok t' => t'
    | .error _ => t
  else t

/-- The warning (if any) one member contributes during the
`Compose.randomize` loop: the member's class name, exactly when it is
randomizable and its `randomize` rejects the data argument. -/
def warnOf (t : Tfm) : Option String :=
  if isRandomizable t then
    match tfmRandomize t with
    | .ok _ => none
    | .error _ => some (tfmName t)
  else none

theorem getA_setA {α : Type} (k1 k2 : String) (v : α) (l : List (String × α)) :
    getA k1 (setA k2 v l) = if k1 = k2 then some v else getA k1 l := by
  induction l with
  | nil =>
      by_cases h : k1 = k2
      · subst h; simp [getA, setA]
      · have h' : ¬k2 = k1 := fun hh => h hh.symm
        simp [getA, setA, h, h']
  | cons p rest ih =>
      obtain ⟨k', v'⟩ := p
      by_cases h2 : k' = k2
      · subst h2
        by_cases h1 : k1 = k'
        · subst h1; simp [getA, setA]
        · have h1' : ¬k' = k1 := fun hh => h1 hh.symm
          simp [getA, setA, h1, h1']
      · by_cases h1 : k' = k1
        · subst h1
          simp [getA, setA, h2]
        · simp [getA, setA, h2, h1, ih]

theorem traceOf_pushTransform (r : DataDict) (k k1 : String) (e : TraceEntry) :
    traceOf (pushTransform r k e) k1 =
      if k1 = k then traceOf r k ++ [e] else traceOf r k1 := by
  by_cases h : k1 = k <;> simp [traceOf, pushTransform, getA_setA, h]

theorem data_pushTransform (r : DataDict) (k : String) (e : TraceEntry) :
    (pushTransform r k e).data = r.data := rfl

theorem popTransform_ok (own : String) (r : DataDict) (k : String)
    (h : (traceOf r k).getLast?.map TraceEntry.className = some own) :
    popTransform own r k = .ok { r with trace := setA k (traceOf r k).dropLast r.trace } := by
  cases he : (traceOf r k).getLast? with
  | none => rw [he] at h; simp at h
  | some e =>
      rw [he] at h
      have hc : e.className = own := by simpa using h
      unfold popTransform
      rw [he]
      simp [hc]

theorem traceOf_popResult (r : DataDict) (k k1 : String) :
    traceOf { r with trace := setA k (traceOf r k).dropLast r.trace } k1 =
      if k1 = k then (traceOf r k).dropLast else traceOf r k1 := by
  by_cases h : k1 = k <;> simp [traceOf, getA_setA, h]

theorem invLeafApply_ok (n : String) (fwd : Int → Int) :
    ∀ (ks : List String) (r : DataDict), ks.Nodup →
      (∀ k ∈ ks, (getA k r.data).isSome = true) →
      ∃ r', invLeafApply n ks fwd r = .ok r' ∧
        (∀ k ∈ ks, traceOf r' k = traceOf r k ++ [⟨n, none⟩]) ∧
        (∀ k, k ∉ ks → traceOf r' k = traceOf r k) ∧
        (∀ k, (getA k r'.data).isSome = (getA k r.data).isSome) := by
  intro ks
  induction ks with
  | nil =>
      intro r _ _
      exact ⟨r, by simp [invLeafApply], by simp, fun _ _ => rfl, fun _ => rfl⟩
  | cons k rest ih =>
      intro r hnd hkeys
      have hkrest : k ∉ rest := (List.nodup_cons.mp hnd).1
      have hndrest : rest.Nodup := (List.nodup_cons.mp hnd).2
      have hk : (getA k r.data).isSome = true := hkeys k (List.mem_cons_self k rest)
      obtain ⟨v, hv⟩ := Option.isSome_iff_exists.mp hk
      set r1 := pushTransform { r with data := setA k (fwd v) r.data } k ⟨n, none⟩ with hr1
      have hdata1 : ∀ k1, (getA k1 r1.data).isSome = (getA k1 r.data).isSome := by
        intro k1
        rw [hr1]
        simp only [data_pushTransform]
        rw [getA_setA]
        by_cases h : k1 = k
        · subst h; simp [hv]
        · simp [h]
      have htr1 : ∀ k1,
          traceOf r1 k1 = if k1 = k then traceOf r k ++ [⟨n, none⟩] else traceOf r k1 := by
        intro k1
        rw [hr1, traceOf_pushTransform]
        split <;> rfl
      obtain ⟨r', heq, hin, hout, hsome⟩ :=
        ih r1 hndrest (fun k' hk' => by rw [hdata1]; exact hkeys k' (List.mem_cons_of_mem k hk'))
      refine ⟨r', ?_, ?_, ?_, fun k1 => (hsome k1).trans (hdata1 k1)⟩
      · simp only [invLeafApply]
        rw [hv]
        exact heq
      · intro k1 hk1
        rcases List.mem_cons.mp hk1 with h | h
        · subst h
          rw [hout k1 hkrest, htr1 k1]
          simp
        · have hne : k1 ≠ k := fun hh => hkrest (hh ▸ h)
          rw [hin k1 h, htr1 k1]
          simp [hne]
      · intro k1 hk1
        have h1 : k1 ∉ rest := fun hh => hk1 (List.mem_cons_of_mem k hh)
        have hne : k1 ≠ k := fun hh => hk1 (hh ▸ List.mem_cons_self k rest)
        rw [hout k1 h1, htr1 k1]
        simp [hne]

theorem invLeafInverse_ok (n : String) (bwd : Int → Int) :
    ∀ (ks : List String) (r : DataDict), ks.Nodup →
      (∀ k ∈ ks, (getA k r.data).isSome = true ∧
        (traceOf r k).getLast?.map TraceEntry.className = some n) →
      ∃ r', invLeafInverse n ks bwd r = .ok r' ∧
        (∀ k ∈ ks, traceOf r' k = (traceOf r k).dropLast) ∧
        (∀ k, k ∉ ks → traceOf r' k = traceOf r k) ∧
        (∀ k, (getA k r'.data).isSome = (getA k r.data).isSome) := by
  intro ks
  induction ks with
  | nil =>
      intro r _ _
      exact ⟨r, by simp [invLeafInverse], by simp, fun _ _ => rfl, fun _ => rfl⟩
  | cons k rest ih =>
      intro r hnd hkeys
      have hkrest : k ∉ rest := (List.nodup_cons.mp hnd).1
      have hndrest : rest.Nodup := (List.nodup_cons.mp hnd).2
      have hk := hkeys k (List.mem_cons_self k rest)
      obtain ⟨v, hv⟩ := Option.isSome_iff_exists.mp hk.1
      set r2 : DataDict := { r with data := setA k (bwd v) r.data } with hr2
      have htr2 : ∀ k1, traceOf r2 k1 = traceOf r k1 := fun _ => rfl
      have hpop : popTransform n r2 k =
          .ok { r2 with trace := setA k (traceOf r2 k).dropLast r2.trace } :=
        popTransform_ok n r2 k (by rw [htr2]; exact hk.2)
      set r1 : DataDict := { r2 with trace := setA k (traceOf r2 k).dropLast r2.trace } with hr1
      have htr1 : ∀ k1,
          traceOf r1 k1 = if k1 = k then (traceOf r k).dropLast else traceOf r k1 := by
        intro k1
        rw [hr1, traceOf_popResult]
        split <;> rfl
      have hdata1 : ∀ k1, (getA k1 r1.data).isSome = (getA k1 r.data).isSome := by
        intro k1
        rw [hr1]
        show (getA k1 (setA k (bwd v) r.data)).isSome = _
        rw [getA_setA]
        by_cases h : k1 = k
        · subst h; simp [hv]
        · simp [h]
      obtain ⟨r', heq, hin, hout, hsome⟩ := ih r1 hndrest (fun k' hk' => by
        have hne : k' ≠ k := fun hh => hkrest (hh ▸ hk')
        constructor
        · rw [hdata1]; exact (hkeys k' (List.mem_cons_of_mem k hk')).1
        · rw [htr1, if_neg hne]; exact (hkeys k' (List.mem_cons_of_mem k hk')).2)
      have hstep : invLeafInverse n (k :: rest) bwd r =
          match popTransform n r2 k with
          | .error e => .error e
          | .ok r1 => invLeafInverse n rest bwd r1 := by
        simp only [invLeafInverse]
        rw [hv]
      refine ⟨r', ?_, ?_, ?_, fun k1 => (hsome k1).trans (hdata1 k1)⟩
      · rw [hstep, hpop]
        exact heq
      · intro k1 hk1
        rcases List.mem_cons.mp hk1 with h | h
        · subst h
          rw [hout k1 hkrest, htr1 k1]
          simp
        · have hne : k1 ≠ k := fun hh => hkrest (hh ▸ h)
          rw [hin k1 h, htr1 k1, if_neg hne]
      · intro k1 hk1
        have h1 : k1 ∉ rest := fun hh => hk1 (List.mem_cons_of_mem k hh)
        have hne : k1 ≠ k := fun hh => hk1 (hh ▸ List.mem_cons_self k rest)
        rw [hout k1 h1, htr1 k1, if_neg hne]

/-- C2: applying one invertible transform appends exactly one trace entry
per declared key (push on forward application) and one inversion removes
exactly one (pop on inverse), other keys untouched; popping when the top
entry does not match the invoking transform's class, or when a key has
zero trace entries, raises a usage error instead of silently producing
wrong output. -/
theorem trace_stack_discipline :
    (∀ (n : String) (fwd : Int → Int) (ks : List String) (r : DataDict), ks.Nodup →
        (∀ k ∈ ks, (getA k r.data).isSome = true) →
        ∃ r', invLeafApply n ks fwd r = .ok r' ∧
          (∀ k ∈ ks, (traceOf r' k).length = (traceOf r k).length + 1) ∧
          (∀ k, k ∉ ks → traceOf r' k = traceOf r k)) ∧
    (∀ (n : String) (bwd : Int → Int) (ks : List String) (r : DataDict), ks.Nodup →
        (∀ k ∈ ks, (getA k r.data).isSome = true ∧
          (traceOf r k).getLast?.map TraceEntry.className = some n) →
        ∃ r', invLeafInverse n ks bwd r = .ok r' ∧
          (∀ k ∈ ks, (traceOf r' k).length + 1 = (traceOf r k).length) ∧
          (∀ k, k ∉ ks → traceOf r' k = traceOf r k)) ∧
    (∀ (own : String) (r : DataDict) (k : String) (e : TraceEntry),
        (traceOf r k).getLast? = some e → e.className ≠ own →
        popTransform own r k = .error "RuntimeError: transform order mismatch on inverse") ∧
    (∀ (own : String) (r : DataDict) (k : String),
        traceOf r k = [] →
        popTransform own r k = .error "RuntimeError: no invertible transform recorded for key") := by
  refine ⟨?_, ?_, ?_, ?_⟩
  · intro n fwd ks r hnd hkeys
    obtain ⟨r', heq, hin, hout, _⟩ := invLeafApply_ok n fwd ks r hnd hkeys
    exact ⟨r', heq, fun k hk => by rw [hin k hk]; simp, hout⟩
  · intro n bwd ks r hnd hkeys
    obtain ⟨r', heq, hin, hout, _⟩ := invLeafInverse_ok n bwd ks r hnd hkeys
    refine ⟨r', heq, fun k hk => ?_, hout⟩
    have hne : traceOf r k ≠ [] := by
      intro hnil
      have := (hkeys k hk).2
      rw [hnil] at this
      simp at this
    have hlen : 0 < (traceOf r k).length := List.length_pos.mpr hne
    rw [hin k hk, List.length_dropLast]
    omega
  · intro own r k e he hne
    unfold popTransform
    rw [he]
    simp [hne]
  · intro own r k h
    unfold popTransform
    rw [h]
    simp

/-- Witness for C2: the discipline instantiated on concrete records — the
test pipeline's `InvA` on `{"x": 10, "y": 20}`, an out-of-order pop by a
different class on a record whose top entry is `InvA`'s, and a pop on a
key with an empty trace. -/
theorem trace_stack_discipline_witness :
    (∃ r', invLeafApply "InvA" ["x", "y"] (fun v => v + 1) d0 = .ok r' ∧
      (∀ k ∈ (["x", "y"] : List String), (traceOf r' k).length = (traceOf d0 k).length + 1) ∧
      (∀ k, k ∉ (["x", "y"] : List String) → traceOf r' k = traceOf d0 k)) ∧
    (∃ r', invLeafInverse "InvA" ["x", "y"] (fun v => v - 1)
        ⟨[("x", 11), ("y", 21)], [("x", [⟨"InvA", none⟩]), ("y", [⟨"InvA", none⟩])]⟩ = .ok r' ∧
      (∀ k ∈ (["x", "y"] : List String), (traceOf r' k).length + 1 =
        (traceOf ⟨[("x", 11), ("y", 21)],
          [("x", [⟨"InvA", none⟩]), ("y", [⟨"InvA", none⟩])]⟩ k).length) ∧
      (∀ k, k ∉ (["x", "y"] : List String) → traceOf r' k =
        traceOf ⟨[("x", 11), ("y", 21)],
          [("x", [⟨"InvA", none⟩]), ("y", [⟨"InvA", none⟩])]⟩ k)) ∧
    popTransform "SpatialPadd" ⟨[("x", 11)], [("x", [⟨"InvA", none⟩])]⟩ "x" =
      .error "RuntimeError: transform order mismatch on inverse" ∧
    popTransform "InvA" d0 "x" =
      .error "RuntimeError: no invertible transform recorded for key" := by
  refine ⟨?_, ?_, ?_, ?_⟩
  · exact trace_stack_discipline.1 "InvA" (fun v => v + 1) ["x", "y"] d0 (by decide) (by decide)
  · exact trace_stack_discipline.2.1 "InvA" (fun v => v - 1) ["x", "y"] _ (by decide) (by decide)
  · exact trace_stack_discipline.2.2.1 "SpatialPadd" _ "x" ⟨"InvA", none⟩ (by decide) (by decide)
  · exact trace_stack_discipline.2.2.2 "InvA" d0 "x" (by decide)

theorem except_bind_ok {ε α β : Type} (a : α) (f : α → Except ε β) :
    (Except.ok a >>= f) = f a := rfl

theorem except_bind_error {ε α β : Type} (e : ε) (f : α → Except ε β) :
    ((Except.error e : Except ε α) >>= f) = .error e := rfl

theorem invWalk_eq_spec : ∀ (ts : List Tfm) (r : DataDict), invWalk ts r = invWalkSpec ts r := by
  intro ts
  induction ts with
  | nil => intro r; simp [invWalk, invWalkSpec]; rfl
  | cons t rest ih =>
      intro r
      have hspec : invWalkSpec (t :: rest) r =
          (invWalkSpec rest r) >>= (fun r1 => if isInvertible t then tfmInverse t r1 else .ok r1) := by
        unfold invWalkSpec
        rw [List.reverse_cons, List.filter_append, List.foldlM_append]
        congr 1
        funext r1
        by_cases hi : isInvertible t
        · simp only [List.filter_cons, List.filter_nil, hi, ite_true, List.foldlM_cons,
            List.foldlM_nil, if_pos]
          rw [bind_pure]
        · simp only [List.filter_cons, List.filter_nil, hi, ite_false, List.foldlM_nil, if_neg]
          rfl
      rw [hspec]
      simp only [invWalk]
      rw [ih]
      cases h : invWalkSpec rest r with
      | error e => rfl
      | ok r1 => rfl

/-- C4: for every keyed record, `Compose.inverse` visits the members in
reverse sequence order calling inverse only on those supporting the
Invertible capability and silently skipping the rest — the source's
backward walk equals the spec's restriction of the reversed member list
to invertible members, and the mapping-level inverse is exactly that walk
on the copied record. -/
theorem compose_inverse_reverse_invertible_only (ts : List Tfm) (r : DataDict) :
    invWalk ts r = invWalkSpec ts r ∧
    composeInverseData ts (.record r) = (invWalkSpec ts r).map Data.record := by
  refine ⟨invWalk_eq_spec ts r, ?_⟩
  show (invWalk ts r).map Data.record = _
  rw [invWalk_eq_spec]

/-- C6: inverting a non-mapping value fails immediately with the usage
error, whatever the members are — before any member's inverse could run —
while a mapping input always proceeds to the backward walk, so the check
never fires for mappings. -/
theorem compose_inverse_requires_mapping :
    (∀ (ts : List Tfm) (x : Int),
      composeInverseData ts (.scalar x) =
        .error "Inverse method only available for dictionary transforms") ∧
    (∀ (ts : List Tfm) (r : DataDict),
      composeInverseData ts (.record r) = (invWalk ts r).map Data.record) :=
  ⟨fun _ _ => rfl, fun _ _ => rfl⟩

/-- C7: `Compose.inverse` never mutates the input record: the walk reads
and writes only the fresh copy allocated by `deepcopy` at address
`h.length`, so every pre-existing heap address — the input's address `a`
included — still holds its original record afterwards, and the returned
address is the copy's. -/
theorem compose_inverse_no_input_mutation (ts : List Tfm) (h : List DataDict) (a : Nat)
    (h' : List DataDict) (n : Nat)
    (hok : composeInverseHeap ts h a = .ok (h', n)) :
    (∀ b, b < h.length → h'.getD b default = h.getD b default) ∧ n = h.length := by
  unfold composeInverseHeap at hok
  cases hw : invWalk ts (h.getD a default) with
  | error e => rw [hw] at hok; cases hok
  | ok r1 =>
      rw [hw] at hok
      injection hok with hok1
      have hh' : h' = (h ++ [h.getD a default]).set h.length r1 :=
        (congrArg Prod.fst hok1).symm
      have hn : n = h.length := (congrArg Prod.snd hok1).symm
      subst hh'
      refine ⟨?_, hn⟩
      intro b hb
      have hb1 : b ≠ h.length := Nat.ne_of_lt hb
      have e1 : ((h ++ [h.getD a default]).set h.length r1).getD b default =
          (((h ++ [h.getD a default]).set h.length r1).get? b).getD default := rfl
      have e2 : h.getD b default = (h.get? b).getD default := rfl
      rw [e1, e2, List.get?_set_ne _ _ (fun hh => hb1 hh.symm), List.get?_append hb]

/-- Witness for C7: the empty pipeline inverted over a one-record heap —
the original record at address 0 is preserved and the result lives at the
fresh address 1. -/
theorem compose_inverse_no_input_mutation_witness :
    (∀ b, b < [d0].length → (([d0, d0].getD b default : DataDict)) = [d0].getD b default) ∧
      (1 : Nat) = [d0].length := by
  have h := compose_inverse_no_input_mutation [] [d0] 0 [d0, d0] 1 (by
    unfold composeInverseHeap
    rw [show invWalk [] ([d0].getD 0 default) = .ok d0 from by simp [invWalk]]
    rfl)
  exact h

/-- C8: `Compose` applies its members strictly in sequence order — the
output of the first i members is the input of member i+1, with no retry
and no skipping — and the concrete pipeline `[A, B, C]` with
`A: x→x+1, B: x→x+2, C: x→x+3` maps the scalar 1 to 7. -/
theorem compose_call_in_sequence_order :
    (∀ (R : Nat → Nat → Nat) (ts : List Tfm) (t : Tfm) (x : Data),
      composeCall R (ts ++ [t]) x = (composeCall R ts x) >>= (fun y => applyTfm R t y)) ∧
    (∀ R : Nat → Nat → Nat, composeCall R [pA, pB, pC] (.scalar 1) = .ok (.scalar 7)) := by
  constructor
  · intro R ts t x
    induction ts generalizing x with
    | nil =>
        simp only [List.nil_append, composeCall]
        rw [except_bind_ok]
        cases h : applyTfm R t x with
        | error e => rfl
        | ok y => rfl
    | cons t0 rest ih =>
        simp only [List.cons_append, composeCall]
        cases h : applyTfm R t0 x with
        | error e => rfl
        | ok y => exact ih y
  · intro R
    simp [composeCall, applyTfm, pA, pB, pC, scalarAdd]

/-- C9: a contained randomizable member whose `randomize` rejects the data
argument never aborts `Compose.randomize`: member-wise, every member is
processed independently (`randStep`), the rejection surfaces only as a
warning naming the member (`warnOf`), and in particular a rejecting member
sitting between two arbitrary sublists leaves both sublists processed
exactly as they would be alone, with the warning recorded in order. -/
theorem compose_randomize_tolerates_mismatch :
    (∀ ts : List Tfm, (composeRandomize ts).1 = ts.map randStep ∧
        (composeRandomize ts).2 = ts.filterMap warnOf) ∧
    (∀ (ts1 ts2 : List Tfm) (n : String) (st : RState) (f : Data → Data),
      composeRandomize (ts1 ++ .rand n false st f :: ts2) =
        ((composeRandomize ts1).1 ++ .rand n false st f :: (composeRandomize ts2).1,
          (composeRandomize ts1).2 ++ n :: (composeRandomize ts2).2)) := by
  have hmain : ∀ ts : List Tfm, (composeRandomize ts).1 = ts.map randStep ∧
      (composeRandomize ts).2 = ts.filterMap warnOf := by
    intro ts
    induction ts with
    | nil => constructor <;> simp [composeRandomize]
    | cons t rest ih =>
        simp only [composeRandomize, List.map_cons, List.filterMap_cons]
        by_cases hr : isRandomizable t
        · cases htr : tfmRandomize t with
          | ok t' =>
              simp only [hr, if_true, htr]
              constructor
              · show t' :: (composeRandomize rest).1 = randStep t :: rest.map randStep
                rw [ih.1]
                congr 1
                simp [randStep, hr, htr]
              · show (composeRandomize rest).2 = _
                have : warnOf t = none := by simp [warnOf, hr, htr]
                rw [this, ih.2]
          | error u =>
              simp only [hr, if_true, htr]
              constructor
              · show t :: (composeRandomize rest).1 = randStep t :: rest.map randStep
                rw [ih.1]
                congr 1
                simp [randStep, hr, htr]
              · show tfmName t :: (composeRandomize rest).2 = _
                have : warnOf t = some (tfmName t) := by simp [warnOf, hr, htr]
                rw [this, ih.2]
        · simp only [hr, if_false]
          constructor
          · show t :: (composeRandomize rest).1 = randStep t :: rest.map randStep
            rw [ih.1]
            congr 1
            simp [randStep, hr]
          · show (composeRandomize rest).2 = _
            have : warnOf t = none := by simp [warnOf, hr]
            rw [this, ih.2]
  constructor
  · exact hmain
  · intro ts1 ts2 n st f
    have hstep : randStep (.rand n false st f) = .rand n false st f := by
      simp [randStep, isRandomizable, tfmRandomize]
    have hwarn : warnOf (.rand n false st f) = some n := by
      simp [warnOf, isRandomizable, tfmRandomize, tfmName]
    have hL := hmain (ts1 ++ .rand n false st f :: ts2)
    have h1 := hmain ts1
    have h2 := hmain ts2
    have e1 : (composeRandomize (ts1 ++ .rand n false st f :: ts2)).1 =
        (composeRandomize ts1).1 ++ .rand n false st f :: (composeRandomize ts2).1 := by
      rw [hL.1, h1.1, h2.1, List.map_append, List.map_cons, hstep]
    have e2 : (composeRandomize (ts1 ++ .rand n false st f :: ts2)).2 =
        (composeRandomize ts1).2 ++ n :: (composeRandomize ts2).2 := by
      rw [hL.2, h1.2, h2.2, List.filterMap_append, List.filterMap_cons, hwarn]
    exact Prod.ext e1 e2

/-- The test suite's pass-through transforms `X` and `Y`. -/
def pX : Tfm := .plain "X" id

/-- See `pX`. -/
def pY : Tfm := .plain "Y" id

/-- Counterexample to C5: `OneOf` extends `Compose` and inherits
`Compose.__len__`, so `len` of a `Compose` holding a three-branch `OneOf`
and two leaves is 5 — the nested `OneOf` is unrolled into its three
members — while the claim's reading (`specLen`, a nested `OneOf` counts as
exactly one element) predicts 3.  This matches the repository's own
`test_len_and_flatten`, which expects `len(OneOf((p1, p2, X()))) == 5`. -/
theorem compose_len_counts_oneOf_recursively_counterexample :
    tfmLen (Tfm.compose ⟨0, 0⟩
        [pX, pY, Tfm.oneOf ⟨0, 0⟩ [pX, pY, pX] (normalizeWeights [1, 1, 1])]) = 5 ∧
    specLen [pX, pY, Tfm.oneOf ⟨0, 0⟩ [pX, pY, pX] (normalizeWeights [1, 1, 1])] = 3 ∧
    tfmLen (Tfm.compose ⟨0, 0⟩
        [pX, pY, Tfm.oneOf ⟨0, 0⟩ [pX, pY, pX] (normalizeWeights [1, 1, 1])]) ≠
      specLen [pX, pY, Tfm.oneOf ⟨0, 0⟩ [pX, pY, pX] (normalizeWeights [1, 1, 1])] := by
  refine ⟨?_, ?_, ?_⟩
  · simp [tfmLen, listLen, pX, pY]
  · simp [specLen, pX, pY]
  · simp [tfmLen, listLen, specLen, pX, pY]

/-- C5 as amended: `len` counts nested `Compose` children recursively and,
`OneOf` being a `Compose` subclass that inherits `__len__`, a nested
`OneOf` member is likewise counted by its own recursive length, not as
one element: `len` of a `OneOf` equals `len` of a `Compose` with the same
members, the count is additive over the member list, and the repository
test's pipeline `OneOf((OneOf((X,Y)), OneOf((Y,Y)), X))` has length 5. -/
theorem compose_len_flattened_count :
    (∀ (st st' : RState) (ts : List Tfm) (ws : List Rat),
        tfmLen (Tfm.oneOf st ts ws) = tfmLen (Tfm.compose st' ts)) ∧
    (∀ ts1 ts2 : List Tfm, listLen (ts1 ++ ts2) = listLen ts1 + listLen ts2) ∧
    tfmLen (Tfm.oneOf ⟨0, 0⟩
        [Tfm.oneOf ⟨0, 0⟩ [pX, pY] (normalizeWeights [1, 3]),
         Tfm.oneOf ⟨0, 0⟩ [pY, pY] (normalizeWeights [2, 2]), pX]
        (normalizeWeights [1, 2, 1])) = 5 := by
  refine ⟨?_, ?_, ?_⟩
  · intro st st' ts ws
    simp [tfmLen]
  · intro ts1 ts2
    induction ts1 with
    | nil => simp [listLen]
    | cons t rest ih => cases t <;> simp [listLen, ih] <;> omega
  · simp [tfmLen, listLen, pX, pY]

theorem assignedSeeds_cons_some (t : Tfm) (l : List Tfm) (s : Nat)
    (h : topSeed t = some s) : assignedSeeds (t :: l) = s :: assignedSeeds l := by
  simp [assignedSeeds, List.filterMap_cons, h]

theorem assignedSeeds_cons_none (t : Tfm) (l : List Tfm)
    (h : topSeed t = none) : assignedSeeds (t :: l) = assignedSeeds l := by
  simp [assignedSeeds, List.filterMap_cons, h]

theorem reseedList_state (R : Nat → Nat → Nat) :
    ∀ (ts : List Tfm) (g : RState),
      (reseedList R g ts).2 = ⟨g.seed, g.cnt + randCount ts⟩ := by
  intro ts
  induction ts with
  | nil =>
      intro g
      simp [reseedList, randCount]
  | cons t rest ih =>
      intro g
      cases hr : isRandomizable t with
      | true =>
          have hcnt : randCount (t :: rest) = randCount rest + 1 := by
            simp [randCount, List.countP_cons, hr]
          simp only [reseedList, hr, if_true]
          rw [ih, hcnt]
          simp only [randint, RState.mk.injEq]
          exact ⟨by trivial, by omega⟩
      | false =>
          have hcnt : randCount (t :: rest) = randCount rest := by
            simp [randCount, List.countP_cons, hr]
          simp only [reseedList, hr]
          rw [if_neg Bool.false_ne_true, ih, hcnt]

theorem topSeed_reseedTfm (R : Nat → Nat → Nat) (s : Nat) (t : Tfm)
    (hr : isRandomizable t = true) : topSeed (reseedTfm R s t) = some s := by
  cases t with
  | plain n f => simp [isRandomizable] at hr
  | inv n ks f g => simp [isRandomizable] at hr
  | rand n b st f => simp [reseedTfm, topSeed]
  | compose st ts =>
      simp only [reseedTfm, topSeed]
      rw [reseedList_state]
  | oneOf st ts ws =>
      simp only [reseedTfm, topSeed]
      rw [reseedList_state]

theorem topSeed_nonrandomizable (t : Tfm) (hr : isRandomizable t = false) :
    topSeed t = none := by
  cases t <;> simp_all [isRandomizable, topSeed]

theorem reseedList_assignedSeeds (R : Nat → Nat → Nat) :
    ∀ (ts : List Tfm) (g : RState),
      assignedSeeds (reseedList R g ts).1 =
        (List.range (randCount ts)).map (fun i => R g.seed (g.cnt + i) % MAXSEED) := by
  intro ts
  induction ts with
  | nil =>
      intro g
      simp [reseedList, randCount, assignedSeeds]
  | cons t rest ih =>
      intro g
      cases hr : isRandomizable t with
      | true =>
          have hcnt : randCount (t :: rest) = randCount rest + 1 := by
            simp [randCount, List.countP_cons, hr]
          simp only [reseedList, hr, if_true]
          rw [hcnt,
            assignedSeeds_cons_some _ _ _ (topSeed_reseedTfm R (randint R g MAXSEED).1 t hr),
            ih, List.range_succ_eq_map]
          simp only [List.map_cons, List.map_map, randint, Nat.add_zero]
          refine congrArg (List.cons _) (List.map_congr_left ?_)
          intro i hi
          show R g.seed (g.cnt + 1 + i) % MAXSEED = R g.seed (g.cnt + (i + 1)) % MAXSEED
          have he : g.cnt + 1 + i = g.cnt + (i + 1) := by omega
          rw [he]
      | false =>
          have hcnt : randCount (t :: rest) = randCount rest := by
            simp [randCount, List.countP_cons, hr]
          simp only [reseedList, hr]
          rw [if_neg Bool.false_ne_true, hcnt,
            assignedSeeds_cons_none _ _ (topSeed_nonrandomizable t hr)]
          exact ih g

theorem reseedList_preserves_nonrandomizable (R : Nat → Nat → Nat) :
    ∀ (ts : List Tfm) (g : RState),
      List.Forall₂ (fun t t' => isRandomizable t = false → t' = t)
        ts (reseedList R g ts).1 := by
  intro ts
  induction ts with
  | nil => intro g; simp [reseedList]
  | cons t rest ih =>
      intro g
      cases hr : isRandomizable t with
      | true =>
          simp only [reseedList, hr, if_true]
          exact List.Forall₂.cons (fun hfalse => absurd hr (by simp [hfalse])) (ih _)
      | false =>
          simp only [reseedList, hr]
          rw [if_neg Bool.false_ne_true]
          exact List.Forall₂.cons (fun _ => rfl) (ih _)

/-- Counterexample to C3: the child seeds are independent bounded draws
from the parent stream, and nothing in `Compose.set_random_state` enforces
distinctness — with a stream whose first two draws coincide, two sibling
randomizable members receive the same child seed. -/
theorem compose_set_random_state_sibling_collision_counterexample :
    assignedSeeds (reseedList (fun _ _ => 0) ⟨7, 0⟩
        [Tfm.rand "RandA" true ⟨1, 0⟩ id, Tfm.rand "RandB" true ⟨2, 0⟩ id]).1 = [0, 0] ∧
    ¬ (assignedSeeds (reseedList (fun _ _ => 0) ⟨7, 0⟩
        [Tfm.rand "RandA" true ⟨1, 0⟩ id, Tfm.rand "RandB" true ⟨2, 0⟩ id]).1).Nodup := by
  have h1 : assignedSeeds (reseedList (fun _ _ => 0) ⟨7, 0⟩
      [Tfm.rand "RandA" true ⟨1, 0⟩ id, Tfm.rand "RandB" true ⟨2, 0⟩ id]).1 = [0, 0] := by
    simp [reseedList, reseedTfm, randint, assignedSeeds, topSeed, isRandomizable, MAXSEED]
  refine ⟨h1, ?_⟩
  rw [h1]
  decide

/-- C3 as amended: `Compose.set_random_state(seed=s)` seeds the
sequencer's own generator from `s` and assigns every randomizable member
one bounded draw from the sequencer's own stream, one draw per member in
sequence order (the i-th randomizable member receives draw i); the
assigned child seeds are a function of the parent seed and the member
count alone, so two pipelines with the same seed and the same number of
randomizable members receive identical child seeds; and the seeds are
pairwise distinct exactly when the underlying draws are — distinctness is
not enforced by the code itself. -/
theorem compose_set_random_state_derives_child_seeds (R : Nat → Nat → Nat) (s : Nat)
    (ts ts' : List Tfm)
    (hcnt : randCount ts = randCount ts')
    (hinj : ∀ i j, i < randCount ts → j < randCount ts → i ≠ j →
      R s i % MAXSEED ≠ R s j % MAXSEED) :
    composeSetRandomState R s ts =
      .compose ⟨s, randCount ts⟩ (reseedList R ⟨s, 0⟩ ts).1 ∧
    assignedSeeds (reseedList R ⟨s, 0⟩ ts).1 =
      (List.range (randCount ts)).map (fun i => R s i % MAXSEED) ∧
    assignedSeeds (reseedList R ⟨s, 0⟩ ts).1 =
      assignedSeeds (reseedList R ⟨s, 0⟩ ts').1 ∧
    (assignedSeeds (reseedList R ⟨s, 0⟩ ts).1).Nodup := by
  have hchar : ∀ l : List Tfm, assignedSeeds (reseedList R ⟨s, 0⟩ l).1 =
      (List.range (randCount l)).map (fun i => R s i % MAXSEED) := by
    intro l
    rw [reseedList_assignedSeeds R l ⟨s, 0⟩]
    apply List.map_congr_left
    intro i _
    show R s (0 + i) % MAXSEED = R s i % MAXSEED
    rw [Nat.zero_add]
  refine ⟨?_, hchar ts, ?_, ?_⟩
  · show Tfm.compose (reseedList R ⟨s, 0⟩ ts).2 (reseedList R ⟨s, 0⟩ ts).1 = _
    rw [reseedList_state R ts ⟨s, 0⟩]
    simp
  · rw [hchar ts, hchar ts', hcnt]
  · rw [hchar ts]
    refine List.Nodup.map_on ?_ (List.nodup_range _)
    intro i hi j hj hf
    by_contra hne
    exact hinj i j (List.mem_range.mp hi) (List.mem_range.mp hj) hne hf

/-- Witness for C3: the amended statement instantiated with the stream
whose draw i is i, the parent seed 5, and two two-member pipelines each
holding two randomizable leaves. -/
theorem compose_set_random_state_derives_child_seeds_witness :
    composeSetRandomState (fun _ i => i) 5
        [Tfm.rand "RandA" true ⟨1, 0⟩ id, Tfm.rand "RandB" true ⟨2, 0⟩ id] =
      .compose ⟨5, randCount [Tfm.rand "RandA" true ⟨1, 0⟩ id, Tfm.rand "RandB" true ⟨2, 0⟩ id]⟩
        (reseedList (fun _ i => i) ⟨5, 0⟩
          [Tfm.rand "RandA" true ⟨1, 0⟩ id, Tfm.rand "RandB" true ⟨2, 0⟩ id]).1 ∧
    assignedSeeds (reseedList (fun _ i => i) ⟨5, 0⟩
        [Tfm.rand "RandA" true ⟨1, 0⟩ id, Tfm.rand "RandB" true ⟨2, 0⟩ id]).1 =
      (List.range (randCount [Tfm.rand "RandA" true ⟨1, 0⟩ id,
        Tfm.rand "RandB" true ⟨2, 0⟩ id])).map (fun i => (fun _ i => i : Nat → Nat → Nat) 5 i % MAXSEED) ∧
    assignedSeeds (reseedList (fun _ i => i) ⟨5, 0⟩
        [Tfm.rand "RandA" true ⟨1, 0⟩ id, Tfm.rand "RandB" true ⟨2, 0⟩ id]).1 =
      assignedSeeds (reseedList (fun _ i => i) ⟨5, 0⟩
        [Tfm.rand "RandC" true ⟨3, 0⟩ id, Tfm.rand "RandD" true ⟨4, 0⟩ id]).1 ∧
    (assignedSeeds (reseedList (fun _ i => i) ⟨5, 0⟩
        [Tfm.rand "RandA" true ⟨1, 0⟩ id, Tfm.rand "RandB" true ⟨2, 0⟩ id]).1).Nodup := by
  refine compose_set_random_state_derives_child_seeds (fun _ i => i) 5
    [Tfm.rand "RandA" true ⟨1, 0⟩ id, Tfm.rand "RandB" true ⟨2, 0⟩ id]
    [Tfm.rand "RandC" true ⟨3, 0⟩ id, Tfm.rand "RandD" true ⟨4, 0⟩ id]
    (by simp [randCount, List.countP_cons, isRandomizable]) ?_
  intro i j hi hj hne
  have h2 : randCount [Tfm.rand "RandA" true ⟨1, 0⟩ id, Tfm.rand "RandB" true ⟨2, 0⟩ id] = 2 := by
    simp [randCount, List.countP_cons, isRandomizable]
  rw [h2] at hi hj
  show i % MAXSEED ≠ j % MAXSEED
  simp only [MAXSEED]
  omega

/-- C10: constructing a `Compose` immediately calls
`set_random_state(seed=get_seed())`, which seeds the sequencer's own
generator from the fresh seed, consumes one bounded draw per randomizable
member, assigns the i-th randomizable member the i-th draw as its new
private generator seed, and leaves every non-randomizable member exactly
untouched. -/
theorem compose_init_reseeds_randomizable_children (R : Nat → Nat → Nat) (gseed : Nat)
    (ts : List Tfm) :
    composeInit R gseed ts = composeSetRandomState R gseed ts ∧
    composeSetRandomState R gseed ts =
      .compose ⟨gseed, randCount ts⟩ (reseedList R ⟨gseed, 0⟩ ts).1 ∧
    assignedSeeds (reseedList R ⟨gseed, 0⟩ ts).1 =
      (List.range (randCount ts)).map (fun i => R gseed i % MAXSEED) ∧
    List.Forall₂ (fun t t' => isRandomizable t = false → t' = t)
      ts (reseedList R ⟨gseed, 0⟩ ts).1 := by
  refine ⟨rfl, ?_, ?_, reseedList_preserves_nonrandomizable R ts ⟨gseed, 0⟩⟩
  · show Tfm.compose (reseedList R ⟨gseed, 0⟩ ts).2 (reseedList R ⟨gseed, 0⟩ ts).1 = _
    rw [reseedList_state R ts ⟨gseed, 0⟩]
    simp
  · rw [reseedList_assignedSeeds R ts ⟨gseed, 0⟩]
    apply List.map_congr_left
    intro i _
    show R gseed (0 + i) % MAXSEED = R gseed i % MAXSEED
    rw [Nat.zero_add]

theorem uniformOf_lt_one (R : Nat → Nat → Nat) (g : RState) : uniformOf R g < 1 := by
  unfold uniformOf
  rw [div_lt_one (by norm_num [MAXSEED])]
  have h := Nat.mod_lt (R g.seed g.cnt) (show 0 < MAXSEED by norm_num [MAXSEED])
  exact_mod_cast h

theorem normalizeWeights_pair : normalizeWeights [(1 : Rat), 1] = [1/2, 1/2] := by
  norm_num [normalizeWeights]

theorem chooseIndex_halves (u : Rat) (h1 : u < 1) :
    chooseIndex u (normalizeWeights [1, 1]) = 0 ∨
      chooseIndex u (normalizeWeights [1, 1]) = 1 := by
  rw [normalizeWeights_pair]
  by_cases h : u < (2 : Rat)⁻¹
  · left; simp [chooseIndex, h]
  · right
    have h2 : u - (2 : Rat)⁻¹ < (2 : Rat)⁻¹ := by
      rw [not_lt] at h
      have hq : (2 : Rat)⁻¹ + (2 : Rat)⁻¹ = 1 := by norm_num
      linarith
    simp [chooseIndex, h, h2]

/-- The record produced by the forward pass of `oneOfAB` when branch 0
(`InvA`) is drawn: values incremented, each key's trace holding `InvA`'s
entry and `OneOf`'s entry recording index 0. -/
def fwdA : DataDict :=
  ⟨[("x", 11), ("y", 21)],
    [("x", [⟨"InvA", none⟩, ⟨"OneOf", some 0⟩]),
     ("y", [⟨"InvA", none⟩, ⟨"OneOf", some 0⟩])]⟩

/-- The record produced by the forward pass of `oneOfAB` when branch 1
(`InvB`) is drawn. -/
def fwdB : DataDict :=
  ⟨[("x", 110), ("y", 120)],
    [("x", [⟨"InvB", none⟩, ⟨"OneOf", some 1⟩]),
     ("y", [⟨"InvB", none⟩, ⟨"OneOf", some 1⟩])]⟩

theorem oneOfAB_apply_branch0 (R : Nat → Nat → Nat) (st : RState)
    (h0 : chooseIndex (uniformOf R st) (normalizeWeights [1, 1]) = 0) :
    applyTfm R (oneOfAB st) (.record d0) = .ok (.record fwdA) := by
  simp only [oneOfAB, applyTfm, List.isEmpty_cons, Bool.false_eq_true, if_false]
  split
  · rename_i heq
    rw [h0] at heq
    simp [List.get?] at heq
  · rename_i t' heq
    rw [h0] at heq
    simp only [List.get?] at heq
    injection heq with heq
    subst heq
    simp only [h0]
    simp [applyTfm, invA, invLeafApply, getA, setA, pushTransform, traceOf, d0,
      oneOfMark, hasTraceKey, Except.map, List.foldl, fwdA]

theorem oneOfAB_apply_branch1 (R : Nat → Nat → Nat) (st : RState)
    (h1 : chooseIndex (uniformOf R st) (normalizeWeights [1, 1]) = 1) :
    applyTfm R (oneOfAB st) (.record d0) = .ok (.record fwdB) := by
  simp only [oneOfAB, applyTfm, List.isEmpty_cons, Bool.false_eq_true, if_false]
  split
  · rename_i heq
    rw [h1] at heq
    simp [List.get?] at heq
  · rename_i t' heq
    rw [h1] at heq
    simp only [List.get?] at heq
    injection heq with heq
    subst heq
    simp only [h1]
    simp [applyTfm, invB, invLeafApply, getA, setA, pushTransform, traceOf, d0,
      oneOfMark, hasTraceKey, Except.map, List.foldl, fwdB]

theorem oneOfAB_inverse_fwdA (st : RState) :
    tfmInverse (oneOfAB st) fwdA = .ok ⟨[("x", 10), ("y", 20)], [("x", []), ("y", [])]⟩ := by
  simp [tfmInverse, oneOfAB, fwdA, oneOfCollect, traceOf, getA, setA, invA, invB,
    isInvertible, invLeafInverse, popTransform, List.foldl]

theorem oneOfAB_inverse_fwdB (st : RState) :
    tfmInverse (oneOfAB st) fwdB = .ok ⟨[("x", 10), ("y", 20)], [("x", []), ("y", [])]⟩ := by
  simp [tfmInverse, oneOfAB, fwdB, oneOfCollect, traceOf, getA, setA, invA, invB,
    isInvertible, invLeafInverse, popTransform, List.foldl]

/-- C1: for every stream and every generator state, applying
`OneOf((InvA, InvB), weights=(1,1))` to `{"x": 10, "y": 20}` and then
inverting restores the data exactly, whichever branch was drawn;
`OneOf.inverse` takes no random draw at all — it is independent of the
selector's generator state — and the branch it re-enters is read from the
recorded index in the trace: a record tagged with index 0 is undone by
`InvA` and a record tagged with index 1 is undone by `InvB`. -/
theorem oneOf_inverse_replays_recorded_branch (R : Nat → Nat → Nat) (st : RState) :
    (∃ fwd : DataDict,
      applyTfm R (oneOfAB st) (.record d0) = .ok (.record fwd) ∧
      tfmInverse (oneOfAB st) fwd =
        .ok ⟨[("x", 10), ("y", 20)], [("x", []), ("y", [])]⟩) ∧
    (∀ (st₁ st₂ : RState) (ts : List Tfm) (ws₁ ws₂ : List Rat) (r : DataDict),
      tfmInverse (.oneOf st₁ ts ws₁) r = tfmInverse (.oneOf st₂ ts ws₂) r) ∧
    tfmInverse (oneOfAB st) fwdA =
      .ok ⟨[("x", 10), ("y", 20)], [("x", []), ("y", [])]⟩ ∧
    tfmInverse (oneOfAB st) fwdB =
      .ok ⟨[("x", 10), ("y", 20)], [("x", []), ("y", [])]⟩ := by
  refine ⟨?_, fun st₁ st₂ ts ws₁ ws₂ r => by simp only [tfmInverse],
    oneOfAB_inverse_fwdA st, oneOfAB_inverse_fwdB st⟩
  rcases chooseIndex_halves (uniformOf R st) (uniformOf_lt_one R st) with h0 | h1
  · exact ⟨fwdA, oneOfAB_apply_branch0 R st h0, oneOfAB_inverse_fwdA st⟩
  · exact ⟨fwdB, oneOfAB_apply_branch1 R st h1, oneOfAB_inverse_fwdB st⟩
